import Mathlib

/-!
# SnFile path utilities (`file/src/snfile.c`)

A shallow embedding of `sn_path_join`, `sn_path_normalize`, `sn_path_filename`
and `sn_path_extension`, followed by theorems about them.

Conventions of the embedding.

* A `char` is the natural number of its byte value.
* A read-only C string argument is the list of the bytes stored at its address;
  the byte at offset `i` is `s.getD i 0`, so the end of the list reads as the
  terminating NUL.
* The destination of `sn_path_join` is a memory `Nat → Nat` indexed by the
  offset from `dst`.
* The buffer that `sn_path_normalize` rewrites in place is a `List Nat`
  holding the path bytes and their terminator; pointers into it are offsets.
* `size_t` is 64 bits wide; `dst_size - 1` is computed modulo `2 ^ 64`.
* `SN_PATH_SEPARATOR` depends on the platform and is the parameter `sep`.
-/

namespace SnFile

/-! ## Bytes -/

/-- The byte of the character `/`. -/
def SLASH : Nat := 47

/-- The byte of the backslash character. -/
def BACKSLASH : Nat := 92

/-- The byte of the character `.`. -/
def DOT : Nat := 46

/-- Value of `SN_PATH_SEPARATOR` when `SN_OS_WINDOWS` is not defined. -/
def SN_PATH_SEPARATOR_POSIX : Nat := 47

/-- Value of `SN_PATH_SEPARATOR` when `SN_OS_WINDOWS` is defined. -/
def SN_PATH_SEPARATOR_WINDOWS : Nat := 92

/-- The bytes of a string literal, without the terminator. -/
def bytes (s : String) : List Nat := s.toList.map Char.toNat

/-- The test `c == '\\' || c == '/'` on a byte. -/
def isSep (c : Nat) : Bool := c == BACKSLASH || c == SLASH

/-- Number of values of `size_t`. -/
def SIZE_MOD : Nat := 2 ^ 64

/-- The expression `dst_size - 1` in `size_t` arithmetic. -/
def sizeMinusOne (dst_size : Nat) : Nat := (dst_size + (SIZE_MOD - 1)) % SIZE_MOD

/-- The assignment `m[i] = v` on a memory. -/
def store (m : Nat → Nat) (i v : Nat) : Nat → Nat := fun k => if k = i then v else m k

/-- The first `n` bytes of a memory. -/
def load (m : Nat → Nat) (n : Nat) : List Nat := (List.range n).map m

/-! ## `sn_path_join` -/

/-- The loop `while (i < dst_size - 1 && src[i - start]) { dst[i] = src[i - start]; ++i; }`
where the list argument holds the bytes of `src` from offset `i - start` on.
Returns the final `i` and the memory. -/
def copyLoop (cap : Nat) : List Nat → Nat → (Nat → Nat) → Nat × (Nat → Nat)
  | [], i, dst => (i, dst)
  | c :: cs, i, dst =>
    if i < cap ∧ c ≠ 0 then copyLoop cap cs (i + 1) (store dst i c) else (i, dst)

/-- The function `sn_path_join(dst, dst_size, a, b)`: the returned flag and the
memory at `dst` when it returns. -/
def sn_path_join (sep : Nat) (dst : Nat → Nat) (dst_size : Nat) (a b : List Nat) :
    Bool × (Nat → Nat) :=
  let cap := sizeMinusOne dst_size
  -- Copy a
  let r1 := copyLoop cap a 0 dst
  let i1 := r1.1
  let dst1 := r1.2
  -- Add separator if not there
  let addSep : Bool :=
    decide (0 < i1) && (a.getD (i1 - 1) 0 != SLASH && a.getD (i1 - 1) 0 != BACKSLASH)
      && decide (i1 < cap)
  let dst2 := if addSep then store dst1 i1 sep else dst1
  let i2 := if addSep then i1 + 1 else i1
  if i2 = cap then (false, dst2)
  else
    let b_start := i2
    -- Copy b
    let r3 := copyLoop cap b i2 dst2
    let i3 := r3.1
    let dst3 := r3.2
    if b.getD (i3 - b_start) 0 ≠ 0 then (false, dst3)
    else (true, store dst3 i3 0)

/-- A memory whose bytes all hold `0xAA`, standing for an uninitialised buffer. -/
def junk : Nat → Nat := fun _ => 170

/-! ## `sn_path_normalize` -/

/-- The variables of `sn_path_normalize` that live across loop iterations; the
pointers `read`, `write`, `last_sep` and `last2_sep` are offsets from `path`. -/
structure NormState where
  buf : List Nat
  read : Nat
  write : Nat
  last_sep : Nat
  last2_sep : Nat
  deriving DecidableEq, Repr

/-- The loop `while (last2_sep != path && *last2_sep != SN_PATH_SEPARATOR) --last2_sep;`
started at the offset given as last argument; returns the final `last2_sep`. -/
def scanBack (sep : Nat) (buf : List Nat) : Nat → Nat
  | 0 => 0
  | k + 1 => if buf.getD (k + 1) 0 ≠ sep then scanBack sep buf k else k + 1

/-- The `switch (*read)` statement that forms the body of the `for` loop. -/
def normBody (sep : Nat) (st : NormState) : NormState :=
  let c := st.buf.getD st.read 0
  if c = BACKSLASH ∨ c = SLASH then
    { st with buf := st.buf.set st.write sep, last2_sep := st.last_sep, last_sep := st.write }
  else if c = DOT then
    let dots := if st.buf.getD (st.read + 1) 0 = DOT then 2 else 1
    let d := st.buf.getD (st.read + dots) 0
    if d = BACKSLASH ∨ d = SLASH then
      if dots = 2 then
        { st with write := st.last2_sep, last_sep := st.last2_sep,
                  last2_sep := scanBack sep st.buf st.last2_sep }
      else
        { st with write := st.last_sep }
    else st
  else
    { st with buf := st.buf.set st.write c }

/-- The byte that the `.` case of the loop body tests for a separator:
`*(read + dots)`. -/
def lookAhead (st : NormState) : Nat :=
  st.buf.getD (st.read + if st.buf.getD (st.read + 1) 0 = DOT then 2 else 1) 0

/-- One iteration of the `for` loop: the body, then `++read, ++write`. -/
def normStep (sep : Nat) (st : NormState) : NormState :=
  let s := normBody sep st
  { s with read := s.read + 1, write := s.write + 1 }

/-- The `for` loop, run for at most `fuel` iterations; `none` when the loop
condition `*read` still holds after `fuel` iterations. -/
def normLoop (sep : Nat) : Nat → NormState → Option NormState
  | 0, st => if st.buf.getD st.read 0 = 0 then some st else none
  | fuel + 1, st =>
    if st.buf.getD st.read 0 = 0 then some st else normLoop sep fuel (normStep sep st)

/-- The state at loop entry: all four pointers equal `path`. -/
def normInit (buf : List Nat) : NormState :=
  { buf := buf, read := 0, write := 0, last_sep := 0, last2_sep := 0 }

/-- The function `sn_path_normalize(path)` on the buffer at `path`: the buffer
when it returns. The loop gets as many iterations as the buffer has bytes. -/
def sn_path_normalize (sep : Nat) (buf : List Nat) : Option (List Nat) :=
  (normLoop sep buf.length (normInit buf)).map fun st => st.buf.set st.write 0

/-- The C string stored at the start of a buffer: its bytes up to the first NUL. -/
def cstr (buf : List Nat) : List Nat := buf.takeWhile (· ≠ 0)

/-- The string left at `path` by `sn_path_normalize` when `path` held the
NUL-free bytes `p` followed by the terminator. -/
def normalized (sep : Nat) (p : List Nat) : Option (List Nat) :=
  (sn_path_normalize sep (p ++ [0])).map cstr

/-! ## `sn_path_filename` and `sn_path_extension` -/

/-- The loop `for (p = path; *p; ++p) if (p == '\\' || p == '/') last = p + 1;`
of `sn_path_filename`. The list holds the bytes stored from `p` on, `p` and
`last` are addresses. The condition compares the pointer `p`, not the byte
`*p`, with the two character constants. -/
def filenameLoop : List Nat → Nat → Nat → Nat
  | [], _, last => last
  | c :: cs, p, last =>
    if c = 0 then last
    else filenameLoop cs (p + 1) (if p = BACKSLASH ∨ p = SLASH then p + 1 else last)

/-- The function `sn_path_filename(path)`: `path` is the address passed, `s`
the bytes stored there; the result is the address returned. -/
def sn_path_filename (path : Nat) (s : List Nat) : Nat :=
  filenameLoop s path path

/-- The loop `for (p = name; *p; ++p) if (p == '.') dot = p;` of
`sn_path_extension`; `none` is the pointer `NULL`. The condition compares the
pointer `p`, not the byte `*p`, with the character constant. -/
def extensionLoop : List Nat → Nat → Option Nat → Option Nat
  | [], _, dot => dot
  | c :: cs, p, dot =>
    if c = 0 then dot
    else extensionLoop cs (p + 1) (if p = DOT then some p else dot)

/-- The function `sn_path_extension(path)`: `path` is the address passed, `s`
the bytes stored there; the result is the address returned, `none` for `NULL`. -/
def sn_path_extension (path : Nat) (s : List Nat) : Option Nat :=
  let name := sn_path_filename path s
  match extensionLoop (s.drop (name - path)) name none with
  | some dot => some (dot + 1)
  | none => none

/-- The string a returned pointer `q` designates inside the string `s` stored
at address `path`. -/
def viewAt (path : Nat) (s : List Nat) (q : Nat) : List Nat := cstr (s.drop (q - path))

/-! ## Accesses and iterations of `sn_path_normalize` -/

/-- The offsets at which the condition of the backward scan evaluates
`*last2_sep`, for a scan started at the offset given as last argument: none
when `last2_sep == path`, since `&&` then skips the dereference. -/
def scanBackReads (sep : Nat) (buf : List Nat) : Nat → List Nat
  | 0 => []
  | k + 1 => (k + 1) :: (if buf.getD (k + 1) 0 ≠ sep then scanBackReads sep buf k else [])

/-- The number of times the backward scan executes its body `--last2_sep`, for
a scan started at the offset given as last argument. -/
def scanBackIters (sep : Nat) (buf : List Nat) : Nat → Nat
  | 0 => 0
  | k + 1 => if buf.getD (k + 1) 0 ≠ sep then scanBackIters sep buf k + 1 else 0

/-- The offsets one iteration of the `for` loop reads: `*read` for the loop
condition and the `switch`, then the reads of the case taken. -/
def iterReads (sep : Nat) (st : NormState) : List Nat :=
  let c := st.buf.getD st.read 0
  if c = BACKSLASH ∨ c = SLASH then [st.read]
  else if c = DOT then
    let dots := if st.buf.getD (st.read + 1) 0 = DOT then 2 else 1
    let d := st.buf.getD (st.read + dots) 0
    if d = BACKSLASH ∨ d = SLASH then
      if dots = 2 then
        [st.read, st.read + 1, st.read + dots] ++ scanBackReads sep st.buf st.last2_sep
      else [st.read, st.read + 1, st.read + dots]
    else [st.read, st.read + 1, st.read + dots]
  else [st.read, st.read]

/-- The offsets one iteration of the `for` loop writes: `*write` in the
separator case and in the default case. -/
def iterWrites (st : NormState) : List Nat :=
  let c := st.buf.getD st.read 0
  if c = BACKSLASH ∨ c = SLASH then [st.write]
  else if c = DOT then []
  else [st.write]

/-- Every offset `sn_path_normalize` reads or writes, in at most `fuel`
iterations: those of each iteration, the read of the last loop condition and
the write of the terminator `*write = 0`. -/
def normAccesses (sep : Nat) : Nat → NormState → List Nat
  | 0, st => if st.buf.getD st.read 0 = 0 then [st.read, st.write] else [st.read]
  | fuel + 1, st =>
    if st.buf.getD st.read 0 = 0 then [st.read, st.write]
    else iterReads sep st ++ iterWrites st ++ normAccesses sep fuel (normStep sep st)

/-- The states at the start of the iterations the `for` loop executes, at
most `fuel` of them. -/
def normIterStates (sep : Nat) : Nat → NormState → List NormState
  | 0, _ => []
  | fuel + 1, st =>
    if st.buf.getD st.read 0 = 0 then []
    else st :: normIterStates sep fuel (normStep sep st)

/-- Whether the iteration starting in `st` takes the `dots == 2` branch: `*read`
and `*(read + 1)` are `.` and `*(read + 2)` is a separator. -/
def isDotDotCollapse (st : NormState) : Bool :=
  st.buf.getD st.read 0 == DOT && st.buf.getD (st.read + 1) 0 == DOT
    && isSep (st.buf.getD (st.read + 2) 0)

/-- The loop invariant of `sn_path_normalize` on the buffer that held the
NUL-free bytes `p` and their terminator at entry. -/
structure NormInv (sep : Nat) (p : List Nat) (st : NormState) : Prop where
  len : st.buf.length = p.length + 1
  rd : st.read ≤ p.length
  wr : st.write ≤ st.read
  lw : st.last_sep ≤ st.write
  ll : st.last2_sep ≤ st.last_sep
  tail : ∀ j, st.read ≤ j → st.buf.getD j 0 = (p ++ [0]).getD j 0
  lsep : st.last_sep = 0 ∨ (st.last_sep < st.write ∧ st.buf.getD st.last_sep 0 = sep)
  l2sep : st.last2_sep = 0 ∨ (st.last2_sep < st.write ∧ st.buf.getD st.last2_sep 0 = sep)

/-! ## Vocabulary of the specification -/

/-- Whether a join of `a` with something needs a separator: `a` is non-empty
and its last byte is neither `/` nor a backslash. -/
def needsSep (a : List Nat) : Bool :=
  match a.getLast? with
  | none => false
  | some c => c != SLASH && c != BACKSLASH

/-- The separator bytes placed between `a` and `b`: one `sep` or nothing. -/
def joinSep (sep : Nat) (a : List Nat) : List Nat := if needsSep a then [sep] else []

/-- The path a successful join produces: `a`, the separator if needed, `b`. -/
def joined (sep : Nat) (a b : List Nat) : List Nat := a ++ joinSep sep a ++ b

/-- A byte with separators replaced by the canonical one. -/
def canonByte (sep : Nat) (c : Nat) : Nat := if isSep c then sep else c

/-- A path with every separator replaced by the canonical one. -/
def canon (sep : Nat) (p : List Nat) : List Nat := p.map (canonByte sep)

/-- Whether some `.` byte of the path is immediately followed by a separator. -/
def dotBeforeSep : List Nat → Bool
  | c :: d :: rest => (c == DOT && isSep d) || dotBeforeSep (d :: rest)
  | _ => false

/-- The bytes after the last separator of a path, the whole path when it has
no separator. -/
def lastSegment (p : List Nat) : List Nat :=
  (p.reverse.takeWhile fun c => !isSep c).reverse

/-! ## Lemmas on `sn_path_join` -/

theorem copyLoop_fst (cap : Nat) (src : List Nat) (h0 : 0 ∉ src) (i : Nat) (dst : Nat → Nat) :
    (copyLoop cap src i dst).1 = i + min src.length (cap - i) := by
  induction src generalizing i dst with
  | nil => simp [copyLoop]
  | cons c cs ih =>
    have hc : c ≠ 0 := fun h => h0 (by simp [h])
    have hcs : 0 ∉ cs := fun h => h0 (by simp [h])
    unfold copyLoop
    by_cases hi : i < cap
    · rw [if_pos ⟨hi, hc⟩, ih hcs]
      simp only [List.length_cons]
      omega
    · rw [if_neg (fun h => hi h.1)]
      simp only [List.length_cons]
      omega

theorem copyLoop_snd (cap : Nat) (src : List Nat) (h0 : 0 ∉ src) (i : Nat) (dst : Nat → Nat)
    (k : Nat) :
    (copyLoop cap src i dst).2 k
      = if i ≤ k ∧ k < i + min src.length (cap - i) then src.getD (k - i) 0 else dst k := by
  induction src generalizing i dst with
  | nil =>
    have h1 : ¬ (i ≤ k ∧ k < i + min ([] : List Nat).length (cap - i)) := by
      simp only [List.length_nil]
      omega
    rw [if_neg h1]
    rfl
  | cons c cs ih =>
    have hc : c ≠ 0 := fun h => h0 (by simp [h])
    have hcs : 0 ∉ cs := fun h => h0 (by simp [h])
    unfold copyLoop
    by_cases hi : i < cap
    · rw [if_pos ⟨hi, hc⟩, ih hcs]
      simp only [List.length_cons]
      by_cases hk : k = i
      · subst hk
        have h1 : ¬ (k + 1 ≤ k ∧ k < k + 1 + min cs.length (cap - (k + 1))) := by omega
        have h2 : k ≤ k ∧ k < k + min (cs.length + 1) (cap - k) := by omega
        rw [if_neg h1, if_pos h2]
        simp [store]
      · by_cases hr : i + 1 ≤ k ∧ k < i + 1 + min cs.length (cap - (i + 1))
        · have h2 : i ≤ k ∧ k < i + min (cs.length + 1) (cap - i) := by omega
          rw [if_pos hr, if_pos h2]
          have : k - i = (k - (i + 1)) + 1 := by omega
          rw [this, List.getD_cons_succ]
        · have h2 : ¬ (i ≤ k ∧ k < i + min (cs.length + 1) (cap - i)) := by omega
          rw [if_neg hr, if_neg h2]
          simp [store, hk]
    · rw [if_neg (fun h => hi h.1)]
      have h2 : ¬ (i ≤ k ∧ k < i + min (cs.length + 1) (cap - i)) := by omega
      simp only [List.length_cons]
      rw [if_neg h2]

theorem getD_last_eq (a : List Nat) (ha : a ≠ []) :
    a.getLast? = some (a.getD (a.length - 1) 0) := by
  rw [List.getLast?_eq_getElem?, List.getD_eq_getElem?_getD]
  have hlen : a.length - 1 < a.length := by
    have := List.length_pos.mpr ha
    omega
  rw [List.getElem?_eq_getElem hlen]
  rfl

theorem needsSep_eq (a : List Nat) :
    needsSep a = (decide (0 < a.length)
      && (a.getD (a.length - 1) 0 != SLASH && a.getD (a.length - 1) 0 != BACKSLASH)) := by
  by_cases ha : a = []
  · subst ha; rfl
  · have hpos : 0 < a.length := List.length_pos.mpr ha
    simp [needsSep, getD_last_eq a ha, hpos]

theorem joinSep_length (sep : Nat) (a : List Nat) :
    (joinSep sep a).length = if needsSep a then 1 else 0 := by
  unfold joinSep
  split <;> rfl

theorem getD_ne_zero_iff (b : List Nat) (hb : 0 ∉ b) (m : Nat) :
    b.getD m 0 ≠ 0 ↔ m < b.length := by
  constructor
  · intro h
    by_contra hm
    exact h (List.getD_eq_default _ _ (by omega))
  · intro hm h
    rw [List.getD_eq_getElem _ _ hm] at h
    exact hb (h ▸ List.getElem_mem hm)

theorem sn_path_join_fst (sep : Nat) (dst : Nat → Nat) (dst_size : Nat) (a b : List Nat)
    (ha : 0 ∉ a) (hb : 0 ∉ b) :
    (sn_path_join sep dst dst_size a b).1
      = decide (a.length + (joinSep sep a).length < sizeMinusOne dst_size
          ∧ a.length + (joinSep sep a).length + b.length ≤ sizeMinusOne dst_size) := by
  generalize hcap : sizeMinusOne dst_size = cap
  have hi1 := copyLoop_fst cap a ha 0 dst
  rw [joinSep_length]
  unfold sn_path_join
  simp only [hcap]
  rw [hi1]
  by_cases hlen : a.length < cap
  · have hmin : 0 + min a.length (cap - 0) = a.length := by omega
    rw [hmin, ← needsSep_eq]
    cases hs : needsSep a <;>
      simp only [hlen, decide_True, Bool.and_true, Bool.false_eq_true, if_false, if_true,
        Bool.and_self, copyLoop_fst cap b hb]
    · by_cases h2 : a.length = cap
      · omega
      · rw [if_neg h2]
        have hsub : a.length + min b.length (cap - a.length) - a.length
            = min b.length (cap - a.length) := by omega
        rw [hsub]
        by_cases h3 : b.getD (min b.length (cap - a.length)) 0 ≠ 0
        · rw [if_pos h3]
          have := (getD_ne_zero_iff b hb _).mp h3
          simp only [Nat.add_zero]
          symm
          rw [decide_eq_false_iff_not]
          omega
        · rw [if_neg h3]
          have := (not_congr (getD_ne_zero_iff b hb (min b.length (cap - a.length)))).mp h3
          simp only [Nat.add_zero]
          symm
          rw [decide_eq_true_iff]
          omega
    · by_cases h2 : a.length + 1 = cap
      · rw [if_pos h2]
        symm
        rw [decide_eq_false_iff_not]
        omega
      · rw [if_neg h2]
        have hsub : a.length + 1 + min b.length (cap - (a.length + 1)) - (a.length + 1)
            = min b.length (cap - (a.length + 1)) := by omega
        rw [hsub]
        by_cases h3 : b.getD (min b.length (cap - (a.length + 1))) 0 ≠ 0
        · rw [if_pos h3]
          have := (getD_ne_zero_iff b hb _).mp h3
          symm
          rw [decide_eq_false_iff_not]
          omega
        · rw [if_neg h3]
          have := (not_congr (getD_ne_zero_iff b hb (min b.length (cap - (a.length + 1))))).mp h3
          symm
          rw [decide_eq_true_iff]
          omega
  · have hmin : 0 + min a.length (cap - 0) = cap := by omega
    rw [hmin]
    have hnot : decide (cap < cap) = false := by simp
    simp only [hnot, Bool.and_false, Bool.false_eq_true, if_false, if_true]
    symm
    rw [decide_eq_false_iff_not]
    split <;> omega

theorem sn_path_join_snd (sep : Nat) (dst : Nat → Nat) (dst_size : Nat) (a b : List Nat)
    (ha : 0 ∉ a) (hb : 0 ∉ b)
    (h1 : a.length + (joinSep sep a).length < sizeMinusOne dst_size)
    (h2 : a.length + (joinSep sep a).length + b.length ≤ sizeMinusOne dst_size) :
    (sn_path_join sep dst dst_size a b).2
      = store (copyLoop (sizeMinusOne dst_size) b (a.length + (joinSep sep a).length)
          (if needsSep a then store (copyLoop (sizeMinusOne dst_size) a 0 dst).2 a.length sep
           else (copyLoop (sizeMinusOne dst_size) a 0 dst).2)).2
          (a.length + (joinSep sep a).length + b.length) 0 := by
  revert h1 h2
  generalize hcap : sizeMinusOne dst_size = cap
  have hi1 := copyLoop_fst cap a ha 0 dst
  rw [joinSep_length]
  intro h1 h2
  unfold sn_path_join
  simp only [hcap]
  rw [hi1]
  have hlen : a.length < cap := by omega
  have hmin : 0 + min a.length (cap - 0) = a.length := by omega
  rw [hmin, ← needsSep_eq]
  cases hs : needsSep a <;>
    simp only [hs, hlen, decide_True, Bool.and_true, Bool.false_eq_true, if_false, if_true,
      Bool.and_self, copyLoop_fst cap b hb] at h1 h2 ⊢
  · have h3 : ¬ a.length = cap := by omega
    rw [if_neg h3]
    have hsub : a.length + min b.length (cap - a.length) - a.length = b.length := by omega
    have hsub2 : a.length + min b.length (cap - a.length) = a.length + b.length := by omega
    rw [hsub, List.getD_eq_default _ _ (le_refl _)]
    simp only [ne_eq, not_true_eq_false, if_false, hsub2, Nat.add_zero]
  · have h3 : ¬ a.length + 1 = cap := by omega
    rw [if_neg h3]
    have hsub : a.length + 1 + min b.length (cap - (a.length + 1)) - (a.length + 1)
        = b.length := by omega
    have hsub2 : a.length + 1 + min b.length (cap - (a.length + 1))
        = a.length + 1 + b.length := by omega
    rw [hsub, List.getD_eq_default _ _ (le_refl _)]
    simp only [ne_eq, not_true_eq_false, if_false, hsub2]

theorem load_eq_of_getD (m : Nat → Nat) (l : List Nat)
    (h : ∀ k, k < l.length → m k = l.getD k 0) : load m l.length = l := by
  apply List.ext_getElem
  · simp [load]
  · intro k hk1 hk2
    simp only [load, List.getElem_map, List.getElem_range]
    rw [h k hk2, List.getD_eq_getElem _ _ hk2]

theorem store_apply (m : Nat → Nat) (i v k : Nat) :
    store m i v k = if k = i then v else m k := rfl

theorem join_after_a (sep cap : Nat) (dst : Nat → Nat) (a : List Nat) (ha : 0 ∉ a)
    (hlen : a.length < cap) (k : Nat) :
    (if needsSep a then store (copyLoop cap a 0 dst).2 a.length sep
      else (copyLoop cap a 0 dst).2) k
      = if k < a.length then a.getD k 0
        else if k = a.length ∧ needsSep a = true then sep else dst k := by
  have hcopy : (copyLoop cap a 0 dst).2 k = if k < a.length then a.getD k 0 else dst k := by
    rw [copyLoop_snd cap a ha]
    by_cases hk : k < a.length
    · rw [if_pos (by omega), if_pos hk]
      simp
    · rw [if_neg (by omega), if_neg hk]
  cases hs : needsSep a
  · simp only [Bool.false_eq_true, if_false, and_false]
    exact hcopy
  · simp only [if_true, and_true]
    unfold store
    by_cases hk : k = a.length
    · rw [if_pos hk, if_neg (by omega), if_pos hk]
    · rw [if_neg hk, if_neg hk]
      exact hcopy

theorem sn_path_join_apply (sep : Nat) (dst : Nat → Nat) (dst_size : Nat) (a b : List Nat)
    (ha : 0 ∉ a) (hb : 0 ∉ b)
    (h1 : a.length + (joinSep sep a).length < sizeMinusOne dst_size)
    (h2 : a.length + (joinSep sep a).length + b.length ≤ sizeMinusOne dst_size) (k : Nat) :
    (sn_path_join sep dst dst_size a b).2 k
      = if k < (joined sep a b ++ [0]).length then (joined sep a b ++ [0]).getD k 0
        else dst k := by
  rw [sn_path_join_snd sep dst dst_size a b ha hb h1 h2]
  revert h1 h2
  generalize sizeMinusOne dst_size = cap
  intro h1 h2
  have hjl : (joined sep a b).length = a.length + (joinSep sep a).length + b.length := by
    simp [joined, Nat.add_assoc]
  have hsl := joinSep_length sep a
  simp only [List.length_append, List.length_singleton, hjl]
  rw [store_apply]
  by_cases hk : k = a.length + (joinSep sep a).length + b.length
  · rw [if_pos hk, if_pos (by omega)]
    rw [List.getD_append_right _ _ _ _ (by omega)]
    simp [hk, hjl]
  · rw [if_neg hk, copyLoop_snd cap b hb, join_after_a sep cap dst a ha (by omega)]
    by_cases hkt : k < a.length + (joinSep sep a).length + b.length + 1
    · rw [if_pos hkt, List.getD_append _ _ _ _ (by omega)]
      unfold joined
      by_cases hkb : a.length + (joinSep sep a).length ≤ k
      · rw [if_pos (by omega)]
        rw [List.getD_append_right _ _ _ _ (by simp; omega)]
        simp
      · rw [if_neg (by omega)]
        rw [List.getD_append _ _ _ _ (by simp; omega)]
        by_cases hkk : k < a.length
        · rw [if_pos hkk, List.getD_append _ _ _ _ hkk]
        · rw [if_neg hkk, List.getD_append_right _ _ _ _ (by omega)]
          have hns : needsSep a = true := by
            cases hs : needsSep a
            · rw [hs] at hsl
              simp only [Bool.false_eq_true, if_false] at hsl
              omega
            · rfl
          have hkeq : k = a.length := by
            simp only [hns, if_true] at hsl
            omega
          rw [if_pos ⟨hkeq, hns⟩]
          simp [hns, hkeq, joinSep]
    · rw [if_neg hkt, if_neg (by omega), if_neg (by omega), if_neg (by omega)]

theorem joinSep_eq (sep : Nat) (a : List Nat) :
    joinSep sep a
      = if a ≠ [] ∧ a.getLast? ≠ some SLASH ∧ a.getLast? ≠ some BACKSLASH then [sep] else [] := by
  unfold joinSep needsSep
  cases h : a.getLast? with
  | none =>
    have : a = [] := List.getLast?_eq_none_iff.mp h
    simp [this]
  | some c =>
    have : a ≠ [] := by
      intro h0
      rw [h0] at h
      simp at h
    by_cases h1 : c = SLASH <;> by_cases h2 : c = BACKSLASH <;> simp [this, h1, h2]

theorem sizeMinusOne_eq (dst_size : Nat) (h1 : 1 ≤ dst_size) (h2 : dst_size < 2 ^ 64) :
    sizeMinusOne dst_size = dst_size - 1 := by
  unfold sizeMinusOne SIZE_MOD
  omega

/-! ## Lemmas on `sn_path_filename` and `sn_path_extension` -/

theorem filenameLoop_high (s : List Nat) (p last : Nat) (hp : 92 < p) :
    filenameLoop s p last = last := by
  induction s generalizing p with
  | nil => rfl
  | cons c cs ih =>
    unfold filenameLoop
    split
    · rfl
    · have hne : ¬ (p = BACKSLASH ∨ p = SLASH) := by
        unfold BACKSLASH SLASH
        omega
      rw [if_neg hne]
      exact ih (p + 1) (by omega)

/-- At every address above 92 `sn_path_filename` returns its argument. -/
theorem sn_path_filename_high (path : Nat) (s : List Nat) (h : 92 < path) :
    sn_path_filename path s = path :=
  filenameLoop_high s path path h

theorem extensionLoop_high (s : List Nat) (p : Nat) (hp : 46 < p) :
    extensionLoop s p none = none := by
  induction s generalizing p with
  | nil => rfl
  | cons c cs ih =>
    unfold extensionLoop
    split
    · rfl
    · have hne : ¬ p = DOT := by
        unfold DOT
        omega
      rw [if_neg hne]
      exact ih (p + 1) (by omega)

/-- At every address above 92 `sn_path_extension` returns `NULL`. -/
theorem sn_path_extension_high (path : Nat) (s : List Nat) (h : 92 < path) :
    sn_path_extension path s = none := by
  unfold sn_path_extension
  simp only []
  rw [sn_path_filename_high path s h, extensionLoop_high _ _ (by omega)]

/-! ## Lemmas on `sn_path_normalize` -/

theorem isSep_iff (c : Nat) : isSep c = true ↔ c = BACKSLASH ∨ c = SLASH := by
  simp [isSep]

theorem isSep_false_iff (c : Nat) : isSep c = false ↔ ¬ (c = BACKSLASH ∨ c = SLASH) := by
  rw [← isSep_iff]
  cases isSep c <;> simp

theorem getD_append_add (done X : List Nat) (j : Nat) :
    (done ++ X).getD (done.length + j) 0 = X.getD j 0 := by
  rw [List.getD_append_right _ _ _ _ (by omega), Nat.add_sub_cancel_left]

theorem set_append_at (done X : List Nat) (v : Nat) :
    (done ++ X).set done.length v = done ++ X.set 0 v := by
  rw [List.set_append_right _ _ (le_refl _), Nat.sub_self]

theorem normBody_sep (sep : Nat) (st : NormState)
    (h : st.buf.getD st.read 0 = BACKSLASH ∨ st.buf.getD st.read 0 = SLASH) :
    normBody sep st
      = { st with buf := st.buf.set st.write sep, last2_sep := st.last_sep,
                  last_sep := st.write } := by
  unfold normBody
  simp only []
  rw [if_pos h]

theorem normBody_dot_keep (sep : Nat) (st : NormState) (hc : st.buf.getD st.read 0 = DOT)
    (hno : ¬ (lookAhead st = BACKSLASH ∨ lookAhead st = SLASH)) :
    normBody sep st = st := by
  unfold lookAhead at hno
  unfold normBody
  simp only []
  rw [if_neg (by rw [hc]; decide), if_pos hc, if_neg hno]

theorem normBody_other (sep : Nat) (st : NormState)
    (h1 : ¬ (st.buf.getD st.read 0 = BACKSLASH ∨ st.buf.getD st.read 0 = SLASH))
    (h2 : ¬ st.buf.getD st.read 0 = DOT) :
    normBody sep st = { st with buf := st.buf.set st.write (st.buf.getD st.read 0) } := by
  unfold normBody
  simp only []
  rw [if_neg h1, if_neg h2]

theorem normStep_buf (sep : Nat) (st : NormState) :
    (normStep sep st).buf = (normBody sep st).buf := rfl

theorem normStep_read (sep : Nat) (st : NormState) :
    (normStep sep st).read = (normBody sep st).read + 1 := rfl

theorem normStep_write (sep : Nat) (st : NormState) :
    (normStep sep st).write = (normBody sep st).write + 1 := rfl

/-- On a path without a `.` followed by a separator, the look-ahead of a `.`
never sees a separator. -/
theorem lookAhead_plain (cs done : List Nat) (st : NormState)
    (hd : dotBeforeSep (DOT :: cs) = false)
    (hbuf : st.buf = done ++ (DOT :: cs ++ [0])) (hr : st.read = done.length) :
    ¬ (lookAhead st = BACKSLASH ∨ lookAhead st = SLASH) := by
  have hn1 : st.buf.getD (st.read + 1) 0 = (cs ++ [0]).getD 0 0 := by
    rw [hbuf, hr]
    exact getD_append_add done (DOT :: cs ++ [0]) 1
  have hn2 : st.buf.getD (st.read + 2) 0 = (cs ++ [0]).getD 1 0 := by
    rw [hbuf, hr]
    exact getD_append_add done (DOT :: cs ++ [0]) 2
  unfold lookAhead
  cases cs with
  | nil =>
    have e1 : st.buf.getD (st.read + 1) 0 = 0 := hn1
    rw [if_neg (by rw [e1]; decide), e1]
    decide
  | cons d ds =>
    have e1 : st.buf.getD (st.read + 1) 0 = d := hn1
    have hd1 : isSep d = false := by
      have : dotBeforeSep (DOT :: d :: ds) = ((DOT == DOT && isSep d) || dotBeforeSep (d :: ds)) :=
        rfl
      rw [this, Bool.or_eq_false_iff] at hd
      simpa using hd.1
    have hd2 : dotBeforeSep (d :: ds) = false := by
      have : dotBeforeSep (DOT :: d :: ds) = ((DOT == DOT && isSep d) || dotBeforeSep (d :: ds)) :=
        rfl
      rw [this, Bool.or_eq_false_iff] at hd
      exact hd.2
    by_cases hdd : d = DOT
    · rw [if_pos (by rw [e1]; exact hdd)]
      cases ds with
      | nil =>
        have e2 : st.buf.getD (st.read + 2) 0 = 0 := hn2
        rw [e2]
        decide
      | cons e es =>
        have e2 : st.buf.getD (st.read + 2) 0 = e := hn2
        rw [e2, ← isSep_false_iff]
        have : dotBeforeSep (d :: e :: es) = ((d == DOT && isSep e) || dotBeforeSep (e :: es)) :=
          rfl
        rw [this, Bool.or_eq_false_iff, hdd] at hd2
        simpa using hd2.1
    · rw [if_neg (by rw [e1]; exact hdd), e1, ← isSep_false_iff]
      exact hd1

/-- On a path without a `.` followed by a separator, one iteration at
`read = write` rewrites the byte under the cursors to its canonical form. -/
theorem normStep_plain (sep : Nat) (c : Nat) (cs done : List Nat) (st : NormState)
    (hd : dotBeforeSep (c :: cs) = false)
    (hbuf : st.buf = done ++ (c :: cs ++ [0])) (hr : st.read = done.length)
    (hw : st.write = done.length) :
    (normStep sep st).buf = done ++ (canonByte sep c :: cs ++ [0])
      ∧ (normStep sep st).read = done.length + 1
      ∧ (normStep sep st).write = done.length + 1 := by
  have hcur : st.buf.getD st.read 0 = c := by
    rw [hbuf, hr]
    exact getD_append_add done (c :: cs ++ [0]) 0
  have hset : ∀ v, st.buf.set st.write v = done ++ (v :: cs ++ [0]) := by
    intro v
    rw [hbuf, hw, set_append_at]
    rfl
  rw [normStep_buf, normStep_read, normStep_write]
  by_cases hsep : c = BACKSLASH ∨ c = SLASH
  · rw [normBody_sep sep st (by rw [hcur]; exact hsep)]
    refine ⟨?_, by rw [← hr], by rw [← hw]⟩
    show st.buf.set st.write sep = _
    rw [hset, canonByte, (isSep_iff c).mpr hsep, if_pos rfl]
  · have hns : isSep c = false := (isSep_false_iff c).mpr hsep
    have hcan : canonByte sep c = c := by
      rw [canonByte, hns]
      rfl
    rw [hcan]
    by_cases hdot : c = DOT
    · subst hdot
      rw [normBody_dot_keep sep st hcur (lookAhead_plain cs done st hd hbuf hr)]
      exact ⟨hbuf, by rw [hr], by rw [hw]⟩
    · rw [normBody_other sep st (by rw [hcur]; exact hsep) (by rw [hcur]; exact hdot)]
      refine ⟨?_, by rw [← hr], by rw [← hw]⟩
      show st.buf.set st.write (st.buf.getD st.read 0) = _
      rw [hset, hcur]

theorem dotBeforeSep_tail (c : Nat) (cs : List Nat) (hd : dotBeforeSep (c :: cs) = false) :
    dotBeforeSep cs = false := by
  cases cs with
  | nil => rfl
  | cons d ds =>
    have : dotBeforeSep (c :: d :: ds) = ((c == DOT && isSep d) || dotBeforeSep (d :: ds)) := rfl
    rw [this, Bool.or_eq_false_iff] at hd
    exact hd.2

/-- On a path without a `.` followed by a separator the loop keeps
`read = write`, canonicalises every byte it passes and stops at the terminator. -/
theorem normLoop_plain (sep : Nat) (rest : List Nat) :
    ∀ (done : List Nat) (fuel : Nat) (st : NormState),
      rest.length ≤ fuel → 0 ∉ rest → dotBeforeSep rest = false →
      st.buf = done ++ (rest ++ [0]) → st.read = done.length → st.write = done.length →
      ∃ st', normLoop sep fuel st = some st'
        ∧ st'.buf = done ++ (canon sep rest ++ [0])
        ∧ st'.write = done.length + rest.length := by
  induction rest with
  | nil =>
    intro done fuel st _ _ _ hbuf hr hw
    have hcur : st.buf.getD st.read 0 = 0 := by
      rw [hbuf, hr]
      exact getD_append_add done ([] ++ [0]) 0
    refine ⟨st, ?_, hbuf, by rw [hw]; rfl⟩
    cases fuel with
    | zero => unfold normLoop; rw [if_pos hcur]
    | succ f => unfold normLoop; rw [if_pos hcur]
  | cons c cs ih =>
    intro done fuel st hfuel h0 hd hbuf hr hw
    have hc : c ≠ 0 := fun h => h0 (by simp [h])
    have hcs : 0 ∉ cs := fun h => h0 (by simp [h])
    have hcur : st.buf.getD st.read 0 = c := by
      rw [hbuf, hr]
      exact getD_append_add done (c :: cs ++ [0]) 0
    cases fuel with
    | zero => simp at hfuel
    | succ f =>
      obtain ⟨hb', hr', hw'⟩ := normStep_plain sep c cs done st hd hbuf hr hw
      have hlen : (done ++ [canonByte sep c]).length = done.length + 1 := by simp
      obtain ⟨st', hrun, hbuf', hwr'⟩ := ih (done ++ [canonByte sep c]) f (normStep sep st)
        (by simpa using hfuel) hcs (dotBeforeSep_tail c cs hd)
        (by rw [hb']; simp) (by rw [hr', hlen]) (by rw [hw', hlen])
      refine ⟨st', ?_, ?_, ?_⟩
      · unfold normLoop
        rw [if_neg (by rw [hcur]; exact hc)]
        exact hrun
      · rw [hbuf']
        simp [canon]
      · rw [hwr', hlen, List.length_cons]
        omega

theorem canonByte_ne_zero (sep c : Nat) (hsep : sep ≠ 0) (hc : c ≠ 0) : canonByte sep c ≠ 0 := by
  unfold canonByte
  split <;> assumption

theorem cstr_append_zero (q : List Nat) (hq : 0 ∉ q) : cstr (q ++ [0]) = q := by
  unfold cstr
  induction q with
  | nil => simp
  | cons c cs ih =>
    have hc : c ≠ 0 := fun h => hq (by simp [h])
    have hcs : 0 ∉ cs := fun h => hq (by simp [h])
    have : ((c :: cs) ++ [0]) = c :: (cs ++ [0]) := rfl
    rw [this, List.takeWhile_cons_of_pos (by simpa using hc), ih hcs]

/-! ## The loop invariant of `sn_path_normalize` -/

theorem getD_set_ne (l : List Nat) (i j v : Nat) (h : i ≠ j) :
    (l.set i v).getD j 0 = l.getD j 0 := by
  rw [List.getD_eq_getElem?_getD, List.getD_eq_getElem?_getD, List.getElem?_set_ne h]

theorem getD_set_eq (l : List Nat) (i v : Nat) (h : i < l.length) :
    (l.set i v).getD i 0 = v := by
  rw [List.getD_eq_getElem?_getD, List.getElem?_set_self h]
  rfl

theorem getD_terminated (p : List Nat) (j : Nat) (h : (p ++ [0]).getD j 0 ≠ 0) :
    j < p.length := by
  by_contra hj
  apply h
  rw [List.getD_append_right _ _ _ _ (by omega)]
  cases hk : j - p.length with
  | zero => rfl
  | succ k => rfl

theorem scanBack_fixed (sep : Nat) (buf : List Nat) (k : Nat)
    (h : k = 0 ∨ buf.getD k 0 = sep) : scanBack sep buf k = k := by
  cases k with
  | zero => rfl
  | succ k =>
    have hk : buf.getD (k + 1) 0 = sep := by
      rcases h with h | h
      · omega
      · exact h
    unfold scanBack
    rw [if_neg (not_not.mpr hk)]

theorem scanBackIters_fixed (sep : Nat) (buf : List Nat) (k : Nat)
    (h : k = 0 ∨ buf.getD k 0 = sep) : scanBackIters sep buf k = 0 := by
  cases k with
  | zero => rfl
  | succ k =>
    have hk : buf.getD (k + 1) 0 = sep := by
      rcases h with h | h
      · omega
      · exact h
    unfold scanBackIters
    rw [if_neg (not_not.mpr hk)]

theorem scanBackReads_le (sep : Nat) (buf : List Nat) (k : Nat) :
    ∀ i ∈ scanBackReads sep buf k, i ≤ k := by
  induction k with
  | zero => intro i hi; simp [scanBackReads] at hi
  | succ k ih =>
    intro i hi
    unfold scanBackReads at hi
    rcases List.mem_cons.mp hi with h | h
    · omega
    · split at h
      · have := ih i h
        omega
      · simp at h

theorem normBody_dot_one (sep : Nat) (st : NormState) (hc : st.buf.getD st.read 0 = DOT)
    (h1 : ¬ st.buf.getD (st.read + 1) 0 = DOT)
    (hs : lookAhead st = BACKSLASH ∨ lookAhead st = SLASH) :
    normBody sep st = { st with write := st.last_sep } := by
  unfold lookAhead at hs
  unfold normBody
  simp only []
  rw [if_neg (by rw [hc]; decide), if_pos hc, if_pos hs, if_neg h1, if_neg (by decide)]

theorem normBody_dot_two (sep : Nat) (st : NormState) (hc : st.buf.getD st.read 0 = DOT)
    (h1 : st.buf.getD (st.read + 1) 0 = DOT)
    (hs : lookAhead st = BACKSLASH ∨ lookAhead st = SLASH) :
    normBody sep st
      = { st with write := st.last2_sep, last_sep := st.last2_sep,
                  last2_sep := scanBack sep st.buf st.last2_sep } := by
  unfold lookAhead at hs
  unfold normBody
  simp only []
  rw [if_neg (by rw [hc]; decide), if_pos hc, if_pos hs, if_pos h1, if_pos rfl]

theorem normInv_init (sep : Nat) (p : List Nat) : NormInv sep p (normInit (p ++ [0])) where
  len := by simp [normInit]
  rd := Nat.zero_le _
  wr := Nat.le_refl _
  lw := Nat.le_refl _
  ll := Nat.le_refl _
  tail := fun _ _ => rfl
  lsep := Or.inl rfl
  l2sep := Or.inl rfl

theorem normInv_read_lt (sep : Nat) (p : List Nat) (st : NormState) (hinv : NormInv sep p st)
    (hc : st.buf.getD st.read 0 ≠ 0) : st.read < p.length :=
  getD_terminated p st.read (by rw [← hinv.tail _ (Nat.le_refl _)]; exact hc)

theorem normInv_l2_stop (sep : Nat) (p : List Nat) (st : NormState) (hinv : NormInv sep p st) :
    st.last2_sep = 0 ∨ st.buf.getD st.last2_sep 0 = sep :=
  hinv.l2sep.imp id (fun h => h.2)

theorem normInv_step (sep : Nat) (p : List Nat) (st : NormState) (hinv : NormInv sep p st)
    (hc : st.buf.getD st.read 0 ≠ 0) : NormInv sep p (normStep sep st) := by
  have hlt := normInv_read_lt sep p st hinv hc
  obtain ⟨hlen, hrd, hwr, hlw, hll, htail, hls, hl2⟩ := hinv
  have hwlen : st.write < st.buf.length := by omega
  by_cases hsep : st.buf.getD st.read 0 = BACKSLASH ∨ st.buf.getD st.read 0 = SLASH
  · have e : normStep sep st = ⟨st.buf.set st.write sep, st.read + 1, st.write + 1,
        st.write, st.last_sep⟩ := by
      unfold normStep
      rw [normBody_sep sep st hsep]
    rw [e]
    refine ⟨?_, ?_, ?_, ?_, ?_, ?_, ?_, ?_⟩ <;> dsimp only
    · rw [List.length_set]; exact hlen
    · omega
    · omega
    · omega
    · exact hlw
    · intro j hj
      rw [getD_set_ne _ _ _ _ (by omega)]
      exact htail j (by omega)
    · right
      exact ⟨by omega, getD_set_eq _ _ _ hwlen⟩
    · rcases hls with h | ⟨h1, h2⟩
      · left; exact h
      · right
        refine ⟨by omega, ?_⟩
        rw [getD_set_ne _ _ _ _ (by omega)]
        exact h2
  · by_cases hdot : st.buf.getD st.read 0 = DOT
    · by_cases hla : lookAhead st = BACKSLASH ∨ lookAhead st = SLASH
      · by_cases h1 : st.buf.getD (st.read + 1) 0 = DOT
        · have hfix := scanBack_fixed sep st.buf st.last2_sep (hl2.imp id (fun h => h.2))
          have e : normStep sep st = ⟨st.buf, st.read + 1, st.last2_sep + 1,
              st.last2_sep, st.last2_sep⟩ := by
            unfold normStep
            rw [normBody_dot_two sep st hdot h1 hla, hfix]
          rw [e]
          refine ⟨?_, ?_, ?_, ?_, ?_, ?_, ?_, ?_⟩ <;> dsimp only
          · exact hlen
          · omega
          · omega
          · omega
          · omega
          · intro j hj
            exact htail j (by omega)
          · rcases hl2 with h | ⟨_, h2⟩
            · left; exact h
            · right; exact ⟨by omega, h2⟩
          · rcases hl2 with h | ⟨_, h2⟩
            · left; exact h
            · right; exact ⟨by omega, h2⟩
        · have e : normStep sep st = ⟨st.buf, st.read + 1, st.last_sep + 1,
              st.last_sep, st.last2_sep⟩ := by
            unfold normStep
            rw [normBody_dot_one sep st hdot h1 hla]
          rw [e]
          refine ⟨?_, ?_, ?_, ?_, ?_, ?_, ?_, ?_⟩ <;> dsimp only
          · exact hlen
          · omega
          · omega
          · omega
          · exact hll
          · intro j hj
            exact htail j (by omega)
          · rcases hls with h | ⟨_, h2⟩
            · left; exact h
            · right; exact ⟨by omega, h2⟩
          · rcases hl2 with h | ⟨_, h2⟩
            · left; exact h
            · right; exact ⟨by omega, h2⟩
      · have e : normStep sep st = ⟨st.buf, st.read + 1, st.write + 1,
            st.last_sep, st.last2_sep⟩ := by
          unfold normStep
          rw [normBody_dot_keep sep st hdot hla]
        rw [e]
        refine ⟨?_, ?_, ?_, ?_, ?_, ?_, ?_, ?_⟩ <;> dsimp only
        · exact hlen
        · omega
        · omega
        · omega
        · exact hll
        · intro j hj
          exact htail j (by omega)
        · rcases hls with h | ⟨h1, h2⟩
          · left; exact h
          · right; exact ⟨by omega, h2⟩
        · rcases hl2 with h | ⟨h1, h2⟩
          · left; exact h
          · right; exact ⟨by omega, h2⟩
    · have e : normStep sep st = ⟨st.buf.set st.write (st.buf.getD st.read 0), st.read + 1,
          st.write + 1, st.last_sep, st.last2_sep⟩ := by
        unfold normStep
        rw [normBody_other sep st hsep hdot]
      rw [e]
      refine ⟨?_, ?_, ?_, ?_, ?_, ?_, ?_, ?_⟩ <;> dsimp only
      · rw [List.length_set]; exact hlen
      · omega
      · omega
      · omega
      · exact hll
      · intro j hj
        rw [getD_set_ne _ _ _ _ (by omega)]
        exact htail j (by omega)
      · rcases hls with h | ⟨h1, h2⟩
        · left; exact h
        · right
          refine ⟨by omega, ?_⟩
          rw [getD_set_ne _ _ _ _ (by omega)]
          exact h2
      · rcases hl2 with h | ⟨h1, h2⟩
        · left; exact h
        · right
          refine ⟨by omega, ?_⟩
          rw [getD_set_ne _ _ _ _ (by omega)]
          exact h2

theorem getD_nul_free (p : List Nat) (h0 : 0 ∉ p) (j : Nat) (hj : j < p.length) :
    (p ++ [0]).getD j 0 ≠ 0 := by
  rw [List.getD_append _ _ _ _ hj]
  exact (getD_ne_zero_iff p h0 j).mpr hj

theorem normBody_read (sep : Nat) (st : NormState) : (normBody sep st).read = st.read := by
  unfold normBody
  simp only []
  generalize (if st.buf.getD (st.read + 1) 0 = DOT then 2 else 1) = dots
  repeat' split
  all_goals rfl

theorem normStep_read_eq (sep : Nat) (st : NormState) :
    (normStep sep st).read = st.read + 1 := by
  rw [normStep_read, normBody_read]

/-- The loop stops, by its condition, within `p.length - read` iterations,
in a state that satisfies the invariant. -/
theorem normLoop_inv (sep : Nat) (p : List Nat) :
    ∀ (fuel : Nat) (st : NormState), NormInv sep p st → p.length - st.read ≤ fuel →
      ∃ st', normLoop sep fuel st = some st' ∧ NormInv sep p st'
        ∧ st'.buf.getD st'.read 0 = 0 := by
  intro fuel
  induction fuel with
  | zero =>
    intro st hinv hfuel
    have hz : st.buf.getD st.read 0 = 0 := by
      by_contra hc
      have := normInv_read_lt sep p st hinv hc
      omega
    exact ⟨st, by unfold normLoop; rw [if_pos hz], hinv, hz⟩
  | succ f ih =>
    intro st hinv hfuel
    by_cases hz : st.buf.getD st.read 0 = 0
    · exact ⟨st, by unfold normLoop; rw [if_pos hz], hinv, hz⟩
    · have hlt := normInv_read_lt sep p st hinv hz
      obtain ⟨st', hrun, hinv', hz'⟩ := ih (normStep sep st) (normInv_step sep p st hinv hz)
        (by rw [normStep_read_eq]; omega)
      refine ⟨st', ?_, hinv', hz'⟩
      unfold normLoop
      rw [if_neg hz]
      exact hrun

theorem iterReads_le (sep : Nat) (p : List Nat) (st : NormState) (hinv : NormInv sep p st)
    (hc : st.buf.getD st.read 0 ≠ 0) : ∀ i ∈ iterReads sep st, i ≤ p.length := by
  have hlt := normInv_read_lt sep p st hinv hc
  have hdots : st.read + (if st.buf.getD (st.read + 1) 0 = DOT then 2 else 1) ≤ p.length := by
    by_cases h1 : st.buf.getD (st.read + 1) 0 = DOT
    · rw [if_pos h1]
      have hne : (p ++ [0]).getD (st.read + 1) 0 ≠ 0 := by
        rw [← hinv.tail _ (by omega), h1]
        decide
      have := getD_terminated p _ hne
      omega
    · rw [if_neg h1]
      omega
  have hscan : ∀ i ∈ scanBackReads sep st.buf st.last2_sep, i ≤ p.length := by
    intro i hi
    have := scanBackReads_le sep st.buf st.last2_sep i hi
    have := hinv.ll
    have := hinv.lw
    have := hinv.wr
    omega
  intro i hi
  unfold iterReads at hi
  simp only [] at hi
  by_cases hsep : st.buf.getD st.read 0 = BACKSLASH ∨ st.buf.getD st.read 0 = SLASH
  · rw [if_pos hsep] at hi
    simp only [List.mem_singleton] at hi
    omega
  · rw [if_neg hsep] at hi
    by_cases hdot : st.buf.getD st.read 0 = DOT
    · rw [if_pos hdot] at hi
      generalize (if st.buf.getD (st.read + 1) 0 = DOT then 2 else 1) = dots at hi hdots
      have hthree : ∀ k ∈ [st.read, st.read + 1, st.read + dots], k ≤ p.length := by
        intro k hk
        simp only [List.mem_cons, List.mem_singleton, List.not_mem_nil, or_false] at hk
        rcases hk with h | h | h <;> omega
      split at hi
      · split at hi
        · rcases List.mem_append.mp hi with h | h
          · exact hthree i h
          · exact hscan i h
        · exact hthree i hi
      · exact hthree i hi
    · rw [if_neg hdot] at hi
      simp only [List.mem_cons, List.mem_singleton, List.not_mem_nil, or_false] at hi
      rcases hi with h | h <;> omega

theorem iterWrites_le (sep : Nat) (p : List Nat) (st : NormState) (hinv : NormInv sep p st) :
    ∀ i ∈ iterWrites st, i ≤ p.length := by
  have := hinv.wr
  have := hinv.rd
  intro i hi
  unfold iterWrites at hi
  simp only [] at hi
  split at hi
  · simp only [List.mem_singleton] at hi
    omega
  · split at hi
    · simp at hi
    · simp only [List.mem_singleton] at hi
      omega

theorem normAccesses_le (sep : Nat) (p : List Nat) :
    ∀ (fuel : Nat) (st : NormState), NormInv sep p st →
      ∀ i ∈ normAccesses sep fuel st, i ≤ p.length := by
  intro fuel
  induction fuel with
  | zero =>
    intro st hinv i hi
    have := hinv.wr
    have := hinv.rd
    unfold normAccesses at hi
    split at hi <;> simp only [List.mem_cons, List.mem_singleton, List.not_mem_nil, or_false] at hi
    · rcases hi with h | h <;> omega
    · omega
  | succ f ih =>
    intro st hinv i hi
    have := hinv.wr
    have := hinv.rd
    unfold normAccesses at hi
    by_cases hz : st.buf.getD st.read 0 = 0
    · rw [if_pos hz] at hi
      simp only [List.mem_cons, List.mem_singleton, List.not_mem_nil, or_false] at hi
      rcases hi with h | h <;> omega
    · rw [if_neg hz] at hi
      rcases List.mem_append.mp hi with h | h
      · rcases List.mem_append.mp h with h | h
        · exact iterReads_le sep p st hinv hz i h
        · exact iterWrites_le sep p st hinv i h
      · exact ih (normStep sep st) (normInv_step sep p st hinv hz) i h

theorem normIterStates_inv (sep : Nat) (p : List Nat) :
    ∀ (fuel : Nat) (st : NormState), NormInv sep p st →
      ∀ s ∈ normIterStates sep fuel st, NormInv sep p s := by
  intro fuel
  induction fuel with
  | zero =>
    intro st _ s hs
    simp [normIterStates] at hs
  | succ f ih =>
    intro st hinv s hs
    unfold normIterStates at hs
    by_cases hz : st.buf.getD st.read 0 = 0
    · rw [if_pos hz] at hs
      simp at hs
    · rw [if_neg hz] at hs
      rcases List.mem_cons.mp hs with h | h
      · rw [h]; exact hinv
      · exact ih (normStep sep st) (normInv_step sep p st hinv hz) s h

theorem normIterStates_length (sep : Nat) (p : List Nat) (h0 : 0 ∉ p) :
    ∀ (fuel : Nat) (st : NormState), NormInv sep p st → p.length - st.read ≤ fuel →
      (normIterStates sep fuel st).length = p.length - st.read := by
  intro fuel
  induction fuel with
  | zero =>
    intro st _ hfuel
    simp only [normIterStates, List.length_nil]
    omega
  | succ f ih =>
    intro st hinv hfuel
    have hrd := hinv.rd
    unfold normIterStates
    by_cases hz : st.buf.getD st.read 0 = 0
    · rw [if_pos hz]
      have : ¬ st.read < p.length := by
        intro hlt
        apply getD_nul_free p h0 st.read hlt
        rw [← hinv.tail _ (Nat.le_refl _)]
        exact hz
      simp only [List.length_nil]
      omega
    · rw [if_neg hz]
      have hlt := normInv_read_lt sep p st hinv hz
      rw [List.length_cons, ih (normStep sep st) (normInv_step sep p st hinv hz)
        (by rw [normStep_read_eq]; omega), normStep_read_eq]
      omega

theorem cstr_set_zero_length (l : List Nat) (w : Nat) (hw : w < l.length) :
    (cstr (l.set w 0)).length ≤ w := by
  unfold cstr
  induction l generalizing w with
  | nil => simp at hw
  | cons c cs ih =>
    cases w with
    | zero => simp
    | succ k =>
      rw [List.set_cons_succ, List.takeWhile_cons]
      split
      · have := ih k (by simpa using hw)
        simp only [List.length_cons]
        omega
      · simp

theorem isDotDotCollapse_iff (st : NormState) :
    isDotDotCollapse st = true ↔ st.buf.getD st.read 0 = DOT ∧ st.buf.getD (st.read + 1) 0 = DOT
      ∧ (st.buf.getD (st.read + 2) 0 = BACKSLASH ∨ st.buf.getD (st.read + 2) 0 = SLASH) := by
  unfold isDotDotCollapse
  rw [Bool.and_eq_true, Bool.and_eq_true, beq_iff_eq, beq_iff_eq, isSep_iff, and_assoc]

/-! ## The properties of the specification -/

/-- C1: for NUL-free `a` and `b` and `dst_size >= 1`, whenever `sn_path_join`
returns true, `dst` holds the bytes of `a`, then one `SN_PATH_SEPARATOR` exactly
when `a` is non-empty and its last byte is neither `/` nor a backslash, then
the bytes of `b`, then a terminating NUL. -/
theorem sn_path_join_success_contents (sep : Nat) (dst : Nat → Nat) (dst_size : Nat)
    (a b : List Nat) (ha : 0 ∉ a) (hb : 0 ∉ b) (_hsz : 1 ≤ dst_size)
    (hok : (sn_path_join sep dst dst_size a b).1 = true) :
    load (sn_path_join sep dst dst_size a b).2
        (a ++ (if a ≠ [] ∧ a.getLast? ≠ some SLASH ∧ a.getLast? ≠ some BACKSLASH
                then [sep] else []) ++ b ++ [0]).length
      = a ++ (if a ≠ [] ∧ a.getLast? ≠ some SLASH ∧ a.getLast? ≠ some BACKSLASH
                then [sep] else []) ++ b ++ [0] := by
  rw [← joinSep_eq]
  rw [sn_path_join_fst sep dst dst_size a b ha hb, decide_eq_true_iff] at hok
  apply load_eq_of_getD
  intro k hk
  have happ := sn_path_join_apply sep dst dst_size a b ha hb hok.1 hok.2 k
  unfold joined at happ
  rw [happ, if_pos hk]

/-- Witness of C1: the join of the test, `a/b` with `c/d` into 256 bytes. -/
theorem sn_path_join_success_contents_witness :
    (sn_path_join SN_PATH_SEPARATOR_POSIX junk 256 (bytes "a/b") (bytes "c/d")).1 = true
      ∧ load (sn_path_join SN_PATH_SEPARATOR_POSIX junk 256 (bytes "a/b") (bytes "c/d")).2 8
          = bytes "a/b/c/d" ++ [0] :=
  ⟨by decide,
   sn_path_join_success_contents SN_PATH_SEPARATOR_POSIX junk 256 (bytes "a/b") (bytes "c/d")
     (by decide) (by decide) (by decide) (by decide)⟩

/-- C2 at a failing input: for the path `/a/b/c.txt` of the test, stored at
address 4096, `sn_path_filename` returns the address it was given, so the
string it designates is the whole path and not `c.txt`. -/
theorem sn_path_filename_returns_whole_path :
    sn_path_filename 4096 (bytes "/a/b/c.txt") = 4096
      ∧ viewAt 4096 (bytes "/a/b/c.txt") (sn_path_filename 4096 (bytes "/a/b/c.txt"))
          = bytes "/a/b/c.txt" := by
  decide

/-- C3 at a failing input: for the path `/a/b/c.txt` of the test, stored at
address 4096, `sn_path_extension` returns `NULL` although the file name holds
a `.` byte. -/
theorem sn_path_extension_returns_null :
    DOT ∈ bytes "c.txt" ∧ sn_path_extension 4096 (bytes "/a/b/c.txt") = none := by
  decide

/-- C4 at a failing input: with `/` the canonical separator, the path
`a/./b/../c//d` of the test is rewritten to `a///c//d`. -/
theorem sn_path_normalize_test_path :
    normalized SN_PATH_SEPARATOR_POSIX (bytes "a/./b/../c//d") = some (bytes "a///c//d") := by
  decide

/-- C5 at a failing input: with `/` the canonical separator, `a/.././..` is
rewritten to `a//./`, which a second call rewrites to `a///`. -/
theorem sn_path_normalize_second_pass_differs :
    normalized SN_PATH_SEPARATOR_POSIX (bytes "a/.././..") = some (bytes "a//./")
      ∧ normalized SN_PATH_SEPARATOR_POSIX (bytes "a//./") = some (bytes "a///") := by
  decide

/-- C6 at a failing input: with `/` the canonical separator, the path
`a/./b\.c` is rewritten to `a//b/\c`, which holds a backslash. -/
theorem sn_path_normalize_leaves_backslash :
    normalized SN_PATH_SEPARATOR_POSIX (bytes "a/./b\\.c") = some (bytes "a//b/\\c")
      ∧ BACKSLASH ∈ bytes "a//b/\\c" := by
  decide

/-- C7 at a failing input: with `/` the canonical separator, `../a` is
rewritten to `./a`. -/
theorem sn_path_normalize_leading_dotdot :
    normalized SN_PATH_SEPARATOR_POSIX (bytes "../a") = some (bytes "./a") := by
  decide

/-- C8: on a NUL-free path in which no `.` byte is immediately followed by a
separator, `sn_path_normalize` returns and leaves a string of the same length
in which every `/` and backslash is replaced by `SN_PATH_SEPARATOR` and every
other byte is unchanged. -/
theorem sn_path_normalize_separators_only (sep : Nat) (p : List Nat) (hsep : sep ≠ 0)
    (h0 : 0 ∉ p) (hd : dotBeforeSep p = false) :
    normalized sep p = some (p.map fun c => if c = SLASH ∨ c = BACKSLASH then sep else c) := by
  obtain ⟨st', hrun, hbuf', hw'⟩ := normLoop_plain sep p [] (p ++ [0]).length
    (normInit (p ++ [0])) (by simp) h0 hd (List.nil_append _).symm rfl rfl
  have hcanon : (p.map fun c => if c = SLASH ∨ c = BACKSLASH then sep else c) = canon sep p := by
    unfold canon
    apply List.map_congr_left
    intro c _
    unfold canonByte
    by_cases h : c = BACKSLASH ∨ c = SLASH
    · rw [if_pos (Or.symm h), (isSep_iff c).mpr h, if_pos rfl]
    · rw [if_neg (fun h' => h (Or.symm h')), (isSep_false_iff c).mpr h]
      rfl
  have hnz : 0 ∉ canon sep p := by
    unfold canon
    intro hmem
    obtain ⟨c, hc, hc0⟩ := List.mem_map.mp hmem
    exact canonByte_ne_zero sep c hsep (fun h => h0 (h ▸ hc)) hc0
  unfold normalized sn_path_normalize
  rw [hrun, hcanon]
  simp only [Option.map_some']
  rw [hbuf', hw']
  simp only [List.nil_append, List.length_nil, Nat.zero_add]
  have hlen : p.length = (canon sep p).length := by simp [canon]
  rw [hlen, set_append_at]
  exact congrArg some (cstr_append_zero _ hnz)

/-- Witness of C8: the path `a\b/c` becomes `a/b/c` when the canonical
separator is `/`. -/
theorem sn_path_normalize_separators_only_witness :
    normalized SN_PATH_SEPARATOR_POSIX (bytes "a\\b/c") = some (bytes "a/b/c") :=
  sn_path_normalize_separators_only SN_PATH_SEPARATOR_POSIX (bytes "a\\b/c") (by decide) (by decide) (by decide)

/-- C9 at a failing input: `"ab"`, the separator and the terminator fill a
destination of 4 bytes exactly, and `sn_path_join(dst, 4, "ab", "")` returns
false. -/
theorem sn_path_join_exact_fit_empty_b :
    (bytes "ab").length + (joinSep SN_PATH_SEPARATOR_POSIX (bytes "ab")).length + (bytes "").length + 1 ≤ 4
      ∧ (sn_path_join SN_PATH_SEPARATOR_POSIX junk 4 (bytes "ab") (bytes "")).1 = false := by
  decide

/-- C10: for NUL-free `a` and `b` and a `size_t` value `dst_size >= 1`, when
`a`, the separator (if one is needed), `b` and the terminating NUL need more
than `dst_size` bytes, `sn_path_join` returns false. -/
theorem sn_path_join_overflow_fails (sep : Nat) (dst : Nat → Nat) (dst_size : Nat)
    (a b : List Nat) (ha : 0 ∉ a) (hb : 0 ∉ b) (hsz : 1 ≤ dst_size) (hmax : dst_size < 2 ^ 64)
    (hbig : a.length + (if a ≠ [] ∧ a.getLast? ≠ some SLASH ∧ a.getLast? ≠ some BACKSLASH
              then 1 else 0) + b.length + 1 > dst_size) :
    (sn_path_join sep dst dst_size a b).1 = false := by
  rw [sn_path_join_fst sep dst dst_size a b ha hb, decide_eq_false_iff_not,
    sizeMinusOne_eq dst_size hsz hmax, joinSep_eq]
  intro h
  by_cases hc : a ≠ [] ∧ a.getLast? ≠ some SLASH ∧ a.getLast? ≠ some BACKSLASH
  · rw [if_pos hc] at h hbig
    simp only [List.length_singleton] at h
    omega
  · rw [if_neg hc] at h hbig
    simp only [List.length_nil] at h
    omega

/-- Witness of C10: `sn_path_join(dst, 3, "abcdef", "g")` returns false. -/
theorem sn_path_join_overflow_fails_witness :
    (sn_path_join SN_PATH_SEPARATOR_POSIX junk 3 (bytes "abcdef") (bytes "g")).1 = false :=
  sn_path_join_overflow_fails SN_PATH_SEPARATOR_POSIX junk 3 (bytes "abcdef") (bytes "g")
    (by decide) (by decide) (by decide) (by decide) (by decide)

/-- C11: for a NUL-free path `p` of length `n`, `sn_path_normalize` returns,
every offset it reads (the look-ahead reads at `read + 1` and `read + 2` and
those of the backward scan included) and every offset it writes (the final
terminator included) is at most `n`, and the string it leaves is no longer than
`p`. -/
theorem sn_path_normalize_stays_in_bounds (sep : Nat) (p : List Nat) (_h0 : 0 ∉ p) :
    (∀ i ∈ normAccesses sep (p ++ [0]).length (normInit (p ++ [0])), i ≤ p.length)
      ∧ ∃ q, normalized sep p = some q ∧ q.length ≤ p.length := by
  refine ⟨normAccesses_le sep p _ _ (normInv_init sep p), ?_⟩
  obtain ⟨st', hrun, hinv', _⟩ := normLoop_inv sep p (p ++ [0]).length (normInit (p ++ [0]))
    (normInv_init sep p) (by simp [normInit])
  refine ⟨cstr (st'.buf.set st'.write 0), ?_, ?_⟩
  · unfold normalized sn_path_normalize
    rw [hrun]
    rfl
  · have hw := hinv'.wr
    have hr := hinv'.rd
    have hl := hinv'.len
    have := cstr_set_zero_length st'.buf st'.write (by omega)
    omega

/-- Witness of C11: the path `a/./b/../c//d` of the test, of length 13. -/
theorem sn_path_normalize_stays_in_bounds_witness :
    (∀ i ∈ normAccesses SN_PATH_SEPARATOR_POSIX (bytes "a/./b/../c//d" ++ [0]).length
        (normInit (bytes "a/./b/../c//d" ++ [0])), i ≤ 13)
      ∧ ∃ q, normalized SN_PATH_SEPARATOR_POSIX (bytes "a/./b/../c//d") = some q
          ∧ q.length ≤ 13 :=
  sn_path_normalize_stays_in_bounds SN_PATH_SEPARATOR_POSIX (bytes "a/./b/../c//d") (by decide)

/-- C12 at a failing input: with `/` the canonical separator, `a/./b.c` is
rewritten to `a//bbc`, whose last segment `bbc` is not the last segment `b.c`
of the input. -/
theorem sn_path_normalize_final_segment_changed :
    normalized SN_PATH_SEPARATOR_POSIX (bytes "a/./b.c") = some (bytes "a//bbc")
      ∧ lastSegment (bytes "a//bbc") = bytes "bbc"
      ∧ lastSegment (bytes "a/./b.c") = bytes "b.c" := by
  decide

/-- C13 at a failing input: with `/` the canonical separator, `ab./c` is
rewritten to `a/c`. -/
theorem sn_path_normalize_trailing_dot_name :
    normalized SN_PATH_SEPARATOR_POSIX (bytes "ab./c") = some (bytes "a/c") := by
  decide

/-- C14: `dst_size - 1` wraps to `2 ^ 64 - 1` for `dst_size = 0`, and for
NUL-free `a` and `b` with `len(a) + len(b) + 2 < 2 ^ 64 - 1` the call
`sn_path_join(dst, 0, a, b)` returns true and leaves `a`, the separator if one
is needed, `b` and the terminating NUL in the first `len(a) + s + len(b) + 1`
bytes of `dst`. -/
theorem sn_path_join_zero_size_wraps (sep : Nat) (dst : Nat → Nat) (a b : List Nat)
    (ha : 0 ∉ a) (hb : 0 ∉ b) (hlen : a.length + b.length + 2 < 2 ^ 64 - 1) :
    sizeMinusOne 0 = 2 ^ 64 - 1
      ∧ (sn_path_join sep dst 0 a b).1 = true
      ∧ load (sn_path_join sep dst 0 a b).2
          (a.length + (if a ≠ [] ∧ a.getLast? ≠ some SLASH ∧ a.getLast? ≠ some BACKSLASH
            then 1 else 0) + b.length + 1)
        = a ++ (if a ≠ [] ∧ a.getLast? ≠ some SLASH ∧ a.getLast? ≠ some BACKSLASH
            then [sep] else []) ++ b ++ [0] := by
  have hcap : sizeMinusOne 0 = 2 ^ 64 - 1 := by decide
  have hs : (joinSep sep a).length ≤ 1 := by
    rw [joinSep_length]
    split <;> omega
  have h1 : a.length + (joinSep sep a).length < sizeMinusOne 0 := by
    rw [hcap]; omega
  have h2 : a.length + (joinSep sep a).length + b.length ≤ sizeMinusOne 0 := by
    rw [hcap]; omega
  refine ⟨hcap, ?_, ?_⟩
  · rw [sn_path_join_fst sep dst 0 a b ha hb, decide_eq_true_iff]
    exact ⟨h1, h2⟩
  · have hlenEq : a.length + (if a ≠ [] ∧ a.getLast? ≠ some SLASH ∧ a.getLast? ≠ some BACKSLASH
        then 1 else 0) + b.length + 1 = (joined sep a b ++ [0]).length := by
      unfold joined
      rw [joinSep_eq]
      split <;> simp <;> omega
    rw [hlenEq, ← joinSep_eq]
    apply load_eq_of_getD
    intro k hk
    rw [sn_path_join_apply sep dst 0 a b ha hb h1 h2 k, if_pos hk]

/-- Witness of C14: the join of `a/b` with `c/d` into a destination of size 0. -/
theorem sn_path_join_zero_size_wraps_witness :
    sizeMinusOne 0 = 2 ^ 64 - 1
      ∧ (sn_path_join SN_PATH_SEPARATOR_POSIX junk 0 (bytes "a/b") (bytes "c/d")).1 = true
      ∧ load (sn_path_join SN_PATH_SEPARATOR_POSIX junk 0 (bytes "a/b") (bytes "c/d")).2 8
          = bytes "a/b/c/d" ++ [0] :=
  sn_path_join_zero_size_wraps SN_PATH_SEPARATOR_POSIX junk (bytes "a/b") (bytes "c/d")
    (by decide) (by decide) (by decide)

/-- C15: on a NUL-free path `p` the loop of `sn_path_normalize` executes
`p.length` iterations, and at the start of each of them
`last2_sep <= last_sep <= write <= read`, each of `last_sep` and `last2_sep`
equals `path` or points at a byte equal to `SN_PATH_SEPARATOR`, the backward
scan started at `last2_sep` executes no iteration, and when the iteration
collapses a `..` segment it ends with `last2_sep` equal to `last_sep`. -/
theorem sn_path_normalize_loop_invariant (sep : Nat) (p : List Nat) (h0 : 0 ∉ p) :
    (normIterStates sep (p ++ [0]).length (normInit (p ++ [0]))).length = p.length
      ∧ ∀ st ∈ normIterStates sep (p ++ [0]).length (normInit (p ++ [0])),
          st.last2_sep ≤ st.last_sep ∧ st.last_sep ≤ st.write ∧ st.write ≤ st.read
            ∧ (st.last_sep = 0 ∨ st.buf.getD st.last_sep 0 = sep)
            ∧ (st.last2_sep = 0 ∨ st.buf.getD st.last2_sep 0 = sep)
            ∧ scanBackIters sep st.buf st.last2_sep = 0
            ∧ (isDotDotCollapse st = true →
                (normStep sep st).last2_sep = (normStep sep st).last_sep) := by
  refine ⟨?_, ?_⟩
  · rw [normIterStates_length sep p h0 _ _ (normInv_init sep p) (by simp [normInit])]
    rfl
  · intro st hst
    have hinv := normIterStates_inv sep p _ _ (normInv_init sep p) st hst
    have hstop := normInv_l2_stop sep p st hinv
    refine ⟨hinv.ll, hinv.lw, hinv.wr, hinv.lsep.imp id (fun h => h.2), hstop,
      scanBackIters_fixed sep st.buf st.last2_sep hstop, ?_⟩
    intro hcol
    obtain ⟨hdot, h1, h2⟩ := (isDotDotCollapse_iff st).mp hcol
    have hla : lookAhead st = BACKSLASH ∨ lookAhead st = SLASH := by
      unfold lookAhead
      rw [if_pos h1]
      exact h2
    unfold normStep
    rw [normBody_dot_two sep st hdot h1 hla]
    exact scanBack_fixed sep st.buf st.last2_sep hstop

/-- Witness of C15: the path `a/b/../../c`, on which two consecutive `..`
segments are collapsed. -/
theorem sn_path_normalize_loop_invariant_witness :
    (normIterStates SN_PATH_SEPARATOR_POSIX (bytes "a/b/../../c" ++ [0]).length
        (normInit (bytes "a/b/../../c" ++ [0]))).length = 11
      ∧ ∀ st ∈ normIterStates SN_PATH_SEPARATOR_POSIX (bytes "a/b/../../c" ++ [0]).length
            (normInit (bytes "a/b/../../c" ++ [0])),
          st.last2_sep ≤ st.last_sep ∧ st.last_sep ≤ st.write ∧ st.write ≤ st.read
            ∧ (st.last_sep = 0 ∨ st.buf.getD st.last_sep 0 = SN_PATH_SEPARATOR_POSIX)
            ∧ (st.last2_sep = 0 ∨ st.buf.getD st.last2_sep 0 = SN_PATH_SEPARATOR_POSIX)
            ∧ scanBackIters SN_PATH_SEPARATOR_POSIX st.buf st.last2_sep = 0
            ∧ (isDotDotCollapse st = true →
                (normStep SN_PATH_SEPARATOR_POSIX st).last2_sep
                  = (normStep SN_PATH_SEPARATOR_POSIX st).last_sep) :=
  sn_path_normalize_loop_invariant SN_PATH_SEPARATOR_POSIX (bytes "a/b/../../c") (by decide)

/-- On `a/b/../../c` the two iterations that collapse a `..` segment, at
`read = 4` and `read = 7`, both rewind to `last2_sep = 1`. -/
theorem normIterStates_consecutive_dotdot :
    ((normIterStates SN_PATH_SEPARATOR_POSIX (bytes "a/b/../../c" ++ [0]).length
        (normInit (bytes "a/b/../../c" ++ [0]))).filter isDotDotCollapse).map
        (fun st => (st.read, st.last2_sep))
      = [(4, 1), (7, 1)] := by
  decide

end SnFile
